import Mathlib

set_option maxRecDepth 100000

/-!
# A shallow embedding of the Greenwald–Khanna quantile summary

This file embeds the quantile summary of `quantile/summary.go` (the
`Summary`/`Skiplist` pair) and proves or refutes the specification claims
about it.

Modelling decisions, each matching the Go source:

* The skiplist's randomly chosen node levels affect only lookup cost, never
  the base-level (level 0) order: `Skiplist.Insert` places a new node after
  all nodes with `value.V <= e.V` at every level, so the base-level list is a
  deterministic sorted list.  The store is therefore embedded as a
  `List Entry` in base-level order.
* `changeSample := rand.Intn(1) == 0` in `compress` is deterministically
  `true` (`rand.Intn(1)` always returns `0`), so `compress` is a pure
  function.
* Go `int` arithmetic on `G`, `Delta` and ranks is embedded as `Int`
  (no overflow occurs in any statement proved here).
* The float64 expressions of the source evaluate, for every count `n`
  reachable here, to exact rationals:
  `int(1.0/(2*epsilon)) = 50`, `int(2*epsilon*N) = 2*N/100` (Nat division),
  `int(epsilon*N) = N/100`, and `int(q*N+0.5) = ⌊q*N + 1/2⌋` for
  nonnegative `q`.  Quantile arguments are embedded as `Rat`.
-/

namespace GK

/-- `Entry` from summary.go: `V` the sampled value, `G` the lower-bound rank
increment, `Delta` the rank uncertainty, `Samples` the span IDs. -/
structure Entry where
  v : Int
  g : Int
  delta : Int
  samples : List Nat
deriving Repr, DecidableEq

/-- `Summary` from summary.go: the skiplist's base-level entry list plus the
observation counter `N`. -/
structure Summary where
  entries : List Entry
  n : Nat
deriving Repr, DecidableEq

/-- `NewSummary()`. -/
def newSummary : Summary := ⟨[], 0⟩

/-- Base-level position of `Skiplist.Insert`: the walk
`for curr.next[i] != nil && e.V >= curr.next[i].value.V` places the new node
after every node whose value is `≤ e.v`. -/
def insertEntry (e : Entry) : List Entry → List Entry
  | [] => [e]
  | x :: xs => if x.v ≤ e.v then x :: insertEntry e xs else e :: x :: xs

/-- The same walk, returning the prefix of nodes passed over (those with
value `≤ v`) and the remaining suffix; used to read off the new node's
`prev[0]`/`next[0]` neighbours. -/
def splitLE (v : Int) : List Entry → List Entry × List Entry
  | [] => ([], [])
  | x :: xs =>
    if x.v ≤ v then
      let p := splitLE v xs
      (x :: p.1, p.2)
    else ([], x :: xs)

/-- `r = int(q*N + 0.5)` of `Summary.Quantile`: Go's `int(x)` truncates
toward zero, which for the nonnegative operands arising from `0 ≤ q ≤ 1`
is `⌊q*N + 1/2⌋ = (2*q.num*N + q.den) / (2*q.den)` (Euclidean `Int`
division; see `rankTarget_eq_floor`). -/
def rankTarget (q : Rat) (n : Nat) : Int :=
  (2 * q.num * (n : Int) + (q.den : Int)) / (2 * (q.den : Int))

/-- The `compress` sweep from summary.go, carried out from the current node
`cur` with the running `missing` counter.  `changeSample` is always true
(`rand.Intn(1) == 0`), so both fold branches replace the survivor's samples
with `cur`'s. -/
def sweepFrom (epsN : Int) : Entry → Int → List Entry → List Entry
  | cur, _, [] => [cur]
  | cur, missing, next :: rest =>
    if cur.v = next.v then
      sweepFrom epsN ⟨next.v, cur.g, next.delta + (missing + next.g), cur.samples⟩
        (missing + next.g) rest
    else if cur.g + next.g + missing + next.delta < epsN then
      sweepFrom epsN ⟨next.v, next.g + (cur.g + missing), next.delta, cur.samples⟩ 0 rest
    else
      cur :: sweepFrom epsN ⟨next.v, next.g + missing, next.delta, next.samples⟩ 0 rest

/-- `Summary.compress`: one sweep with error budget `epsN = int(2*epsilon*N)`. -/
def Summary.compress (s : Summary) : Summary :=
  { s with
    entries :=
      match s.entries with
      | [] => []
      | e :: rest => sweepFrom ((2 * s.n / 100 : Nat) : Int) e 0 rest }

/-- `Summary.Insert(v, t)`: wrap the pair as `{V: v, G: 1, Delta: 0,
Samples: [t]}`, insert it, bump `N`, give it `Delta = int(2*epsilon*N)` when
it has both a predecessor entry and a successor, and run `compress` every
`int(1.0/(2*epsilon)) = 50` insertions. -/
def Summary.insert (s : Summary) (v0 : Int) (t : Nat) : Summary :=
  let n1 := s.n + 1
  let p := splitLE v0 s.entries
  let d : Int := if p.1 ≠ [] ∧ p.2 ≠ [] then ((2 * n1 / 100 : Nat) : Int) else 0
  let s1 : Summary := ⟨p.1 ++ ⟨v0, 1, d, [t]⟩ :: p.2, n1⟩
  if n1 % 50 = 0 then s1.compress else s1

/-- The walk of `Summary.Quantile` over the entry list, with `re = r + epsN`
precomputed and `rmin` the accumulated rank lower bound.  Running off the end
of an empty store is the `panic("not reached")`, embedded as `none`. -/
def qWalk (re : Int) : Int → List Entry → Option (Int × List Nat)
  | _, [] => none
  | rmin, x :: rest =>
    match rest with
    | [] => some (x.v, x.samples)
    | nx :: _ =>
      if re < rmin + x.g + nx.g + nx.delta then
        if re < rmin + x.g + nx.g then some (x.v, x.samples)
        else some (nx.v, nx.samples)
      else qWalk re (rmin + x.g) rest

/-- `Summary.Quantile(q)` with `r = int(q*N + 0.5)` and
`epsN = int(epsilon*N) = N/100`. -/
def Summary.quantile (s : Summary) (q : Rat) : Option (Int × List Nat) :=
  qWalk (rankTarget q s.n + ((s.n / 100 : Nat) : Int)) 0 s.entries

/-- The zero `Entry` held by the skiplist's sentinel head node. -/
def zeroEntry : Entry := ⟨0, 0, 0, []⟩

/-- `Summary.Merge(other)`: no-op when `other.N == 0`; otherwise add
`other.N` to `N`, re-insert every entry of `other`'s store walking from the
skiplist *head* (so the sentinel's zero entry is inserted too, exactly as the
source's `curElt := s2.data.head` loop does), then compress once. -/
def Summary.merge (s other : Summary) : Summary :=
  if other.n = 0 then s
  else
    Summary.compress
      ⟨(zeroEntry :: other.entries).foldl (fun acc e => insertEntry e acc) s.entries,
        s.n + other.n⟩

/-- JSON/gob round trip: `MarshalJSON`/`GobEncode` flatten the store walking
from the head (sentinel included), and `UnmarshalJSON`/`GobDecode` rebuild a
fresh store by re-inserting every encoded entry. -/
def Summary.roundTrip (s : Summary) : Summary :=
  ⟨(zeroEntry :: s.entries).foldl (fun acc e => insertEntry e acc) [], s.n⟩

/-- `SummarySlice` from summary.go. -/
structure SummarySlice where
  startV : Int
  endV : Int
  weight : Int
  samples : List Nat
deriving Repr, DecidableEq

/-- The `BySlices` loop: `last` starts at the sentinel head (value 0) and one
slice is emitted per entry. -/
def bySlicesFrom (maxSamples : Nat) (lastV : Int) : List Entry → List SummarySlice
  | [] => []
  | cur :: rest =>
    ⟨lastV, cur.v, cur.g + cur.delta - 1, cur.samples.take maxSamples⟩ ::
      bySlicesFrom maxSamples cur.v rest

/-- `Summary.BySlices(maxSamples)`. -/
def Summary.bySlices (s : Summary) (maxSamples : Nat) : List SummarySlice :=
  bySlicesFrom maxSamples 0 s.entries

/-- Feed a list of `(value, sampleID)` observations through `Insert`. -/
def insertList (ps : List (Int × Nat)) : Summary :=
  ps.foldl (fun s p => s.insert p.1 p.2) newSummary

/-- Summaries reachable by the public mutating API. -/
inductive Reachable : Summary → Prop
  | base : Reachable newSummary
  | ins (s : Summary) (v : Int) (t : Nat) : Reachable s → Reachable (s.insert v t)
  | mrg (s other : Summary) : Reachable s → Reachable other →
      Reachable (s.merge other)

/-- Number of observations strictly below `v`. -/
def countLT (v : Int) (obs : List Int) : Int :=
  ((obs.filter fun x => x < v).length : Int)

/-- 1-based rank of `v` in `obs`; when the observations are pairwise distinct
and `v ∈ obs` this is the position of `v` in the ascending sort of `obs`. -/
def trueRank1 (v : Int) (obs : List Int) : Int := 1 + countLT v obs

/-- The spec's per-entry rank bracket: walking the entries with accumulated
`rmin`, each entry's true rank lies in `[rmin + G, rmin + G + Delta]`. -/
def RankBounds (obs : List Int) : Int → List Entry → Prop
  | _, [] => True
  | rmin, e :: rest =>
    (rmin + e.g ≤ trueRank1 e.v obs ∧ trueRank1 e.v obs ≤ rmin + e.g + e.delta) ∧
      RankBounds obs (rmin + e.g) rest

/-- `TestArray` from summary_test.go. -/
def testArray : List Int :=
  [9193603307515863, 6754367334490737, 3319615827007736, 5889610372829623,
   9056711574806808, 552001800400511, 13400109297856412, 9290419307253104,
   22335189735651727, 20198755397426237, 6750759924055697, 5282418092338629,
   7669954555439878, 9871073458267054, 9596813405908124, 17826985234078452,
   20809685535785593, 169504538801585, 3742572289274816, 5269690153609658,
   5911223635170287, 8307883610131084, 2782048181817819, 3730609951306336,
   4049109332077119, 25526756656192197, 9178098692976052, 14247068431339682,
   9790147915267598, 26879545051663945, 6061096718141231, 18513304861202883,
   36038916238811566, 25585683826277574, 9896041109367753, 6071196089481084,
   7192619690997925, 4638251828961559, 3042642059231756, 4695726824572235,
   44887308998594665, 3933519497422833, 17471932249059073, 4220651987288255,
   6037514377711865, 9334562578999125, 1564928248590489, 3263044748940436,
   4590412317155934, 5470186478741421, 7945869119417566, 5954581154568589,
   894968515670638, 7620414993900439, 9670709128536947, 6566981438432174,
   7097246010376681, 38073653883035684, 28936241604793246, 9572137207232106,
   8763202610627523, 24879815234751902, 29520475378617226, 4325698909679998,
   1385395600985416, 21587377639944705, 23838639891325397, 47092556792851724,
   380708162070026, 7041179813266126, 11313259703460376, 16338073267858633,
   7157789354354156, 7679321360662391, 1296853853173733, 8289135153494715,
   5067591593829185, 6875574194262736, 6816612766339816, 2744231634144031,
   3371312301999041, 3582026995577731, 9560887595174091, 9478826709460911,
   14554548042944748, 2381196435702264, 920004969814432, 16786031463171992,
   9843289339356544, 4813972590910607, 8148484660815154, 3645114654798244,
   57439089131166135, 8901361618305092, 1776157835648735, 5659433639754501,
   43703315824233925, 760807861832865, 4575552020357635, 29239935027624495]

/-- `NewSummaryWithTestData()`: insert `testArray[i]` with sample ID `i`. -/
def testPairs : List (Int × Nat) := testArray.enum.map fun p => (p.2, p.1)

end GK

namespace GK

/-! ## The rank target of `Quantile` is `⌊q*N + 1/2⌋` -/

theorem rankTarget_eq_floor (q : Rat) (n : Nat) :
    rankTarget q n = Int.floor (q * (n : Rat) + 1/2) := by
  have hq : (q * (n : Rat) + 1/2) =
      ((2 * q.num * (n : Int) + (q.den : Int) : Int) : Rat) / ((2 * q.den : Nat) : Rat) := by
    rw [eq_div_iff (by push_cast; positivity)]
    have hnum := Rat.mul_den_eq_num q
    push_cast
    nlinarith [hnum]
  rw [rankTarget, hq, Rat.floor_intCast_div_natCast]
  push_cast
  ring_nf

/-! ## Structural lemmas about the store operations -/

theorem mem_insertEntry {y e : Entry} : ∀ {l : List Entry},
    y ∈ insertEntry e l → y = e ∨ y ∈ l := by
  intro l
  induction l with
  | nil => intro h; simp [insertEntry] at h; exact Or.inl h
  | cons x xs ih =>
    intro h
    by_cases hx : x.v ≤ e.v
    · simp only [insertEntry, if_pos hx, List.mem_cons] at h
      rcases h with h | h
      · exact Or.inr (by simp [h])
      · rcases ih h with h1 | h1
        · exact Or.inl h1
        · exact Or.inr (List.mem_cons_of_mem _ h1)
    · simp only [insertEntry, if_neg hx, List.mem_cons] at h
      rcases h with h | h
      · exact Or.inl h
      · exact Or.inr (by simpa using h)

theorem insertEntry_perm (e : Entry) : ∀ (l : List Entry),
    List.Perm (insertEntry e l) (e :: l) := by
  intro l
  induction l with
  | nil => simp [insertEntry]
  | cons x xs ih =>
    by_cases hx : x.v ≤ e.v
    · simp only [insertEntry, if_pos hx]
      exact ((ih.cons x).trans (List.Perm.swap e x xs))
    · simp [insertEntry, if_neg hx]

theorem insertEntry_ne_nil (e : Entry) (l : List Entry) : insertEntry e l ≠ [] := by
  cases l with
  | nil => simp [insertEntry]
  | cons x xs =>
    by_cases hx : x.v ≤ e.v <;> simp [insertEntry, hx]

theorem splitLE_append (v : Int) : ∀ (l : List Entry),
    (splitLE v l).1 ++ (splitLE v l).2 = l := by
  intro l
  induction l with
  | nil => rfl
  | cons x xs ih =>
    by_cases hx : x.v ≤ v <;> simp [splitLE, hx, ih]

theorem splitLE_insert (e : Entry) : ∀ (l : List Entry),
    (splitLE e.v l).1 ++ e :: (splitLE e.v l).2 = insertEntry e l := by
  intro l
  induction l with
  | nil => rfl
  | cons x xs ih =>
    by_cases hx : x.v ≤ e.v <;> simp [splitLE, insertEntry, hx, ih]

theorem sweepFrom_ne_nil (epsN : Int) : ∀ (l : List Entry) (cur : Entry) (m : Int),
    sweepFrom epsN cur m l ≠ [] := by
  intro l
  induction l with
  | nil => intro cur m; simp [sweepFrom]
  | cons next rest ih =>
    intro cur m
    by_cases h1 : cur.v = next.v
    · simpa [sweepFrom, h1] using ih _ _
    · by_cases h2 : cur.g + next.g + m + next.delta < epsN
      · simpa [sweepFrom, h1, h2] using ih _ _
      · simp [sweepFrom, h1, h2]

theorem sweepFrom_val_mem (epsN : Int) : ∀ (l : List Entry) (cur : Entry) (m : Int)
    (y : Entry), y ∈ sweepFrom epsN cur m l → ∃ z ∈ cur :: l, y.v = z.v := by
  intro l
  induction l with
  | nil =>
    intro cur m y hy
    simp only [sweepFrom, List.mem_singleton] at hy
    exact ⟨cur, by simp, by rw [hy]⟩
  | cons next rest ih =>
    intro cur m y hy
    by_cases h1 : cur.v = next.v
    · simp only [sweepFrom, if_pos h1] at hy
      rcases ih _ _ _ hy with ⟨z, hz, hv⟩
      rcases List.mem_cons.mp hz with hz | hz
      · exact ⟨next, by simp, by rw [hv, hz]⟩
      · exact ⟨z, by simp [hz], hv⟩
    · by_cases h2 : cur.g + next.g + m + next.delta < epsN
      · simp only [sweepFrom, if_neg h1, if_pos h2] at hy
        rcases ih _ _ _ hy with ⟨z, hz, hv⟩
        rcases List.mem_cons.mp hz with hz | hz
        · exact ⟨next, by simp, by rw [hv, hz]⟩
        · exact ⟨z, by simp [hz], hv⟩
      · simp only [sweepFrom, if_neg h1, if_neg h2, List.mem_cons] at hy
        rcases hy with hy | hy
        · exact ⟨cur, by simp, by rw [hy]⟩
        · rcases ih _ _ _ hy with ⟨z, hz, hv⟩
          rcases List.mem_cons.mp hz with hz | hz
          · exact ⟨next, by simp, by rw [hv, hz]⟩
          · exact ⟨z, by simp [hz], hv⟩

end GK

namespace GK

/-- Ascending `Value` order of the store (the base-level skiplist order). -/
def ValSorted (l : List Entry) : Prop :=
  List.Pairwise (fun a b : Entry => a.v ≤ b.v) l

/-- Strictly ascending `Value` order. -/
def ValStrict (l : List Entry) : Prop :=
  List.Pairwise (fun a b : Entry => a.v < b.v) l

theorem insertEntry_sorted (e : Entry) : ∀ {l : List Entry},
    ValSorted l → ValSorted (insertEntry e l) := by
  intro l
  induction l with
  | nil => intro _; simp [insertEntry, ValSorted]
  | cons x xs ih =>
    intro h
    rcases (List.pairwise_cons.mp h) with ⟨hx, hxs⟩
    by_cases hc : x.v ≤ e.v
    · simp only [insertEntry, if_pos hc]
      refine List.pairwise_cons.mpr ⟨?_, ih hxs⟩
      intro y hy
      rcases mem_insertEntry hy with rfl | hy
      · exact hc
      · exact hx y hy
    · simp only [insertEntry, if_neg hc]
      refine List.pairwise_cons.mpr ⟨?_, h⟩
      intro y hy
      rcases List.mem_cons.mp hy with rfl | hy
      · exact le_of_lt (lt_of_not_le hc)
      · exact le_trans (le_of_lt (lt_of_not_le hc)) (hx y hy)

theorem sweepFrom_sorted (epsN : Int) : ∀ (l : List Entry) (cur : Entry) (m : Int),
    ValSorted (cur :: l) → ValSorted (sweepFrom epsN cur m l) := by
  intro l
  induction l with
  | nil => intro cur m _; simp [sweepFrom, ValSorted]
  | cons next rest ih =>
    intro cur m h
    rcases List.pairwise_cons.mp h with ⟨hcur, htail⟩
    rcases List.pairwise_cons.mp htail with ⟨hnext, hrest⟩
    by_cases h1 : cur.v = next.v
    · simp only [sweepFrom, if_pos h1]
      refine ih _ _ (List.pairwise_cons.mpr ⟨?_, hrest⟩)
      intro y hy
      exact hnext y hy
    · by_cases h2 : cur.g + next.g + m + next.delta < epsN
      · simp only [sweepFrom, if_neg h1, if_pos h2]
        refine ih _ _ (List.pairwise_cons.mpr ⟨?_, hrest⟩)
        intro y hy
        exact hnext y hy
      · simp only [sweepFrom, if_neg h1, if_neg h2]
        refine List.pairwise_cons.mpr ⟨?_, ?_⟩
        · intro y hy
          rcases sweepFrom_val_mem epsN rest _ 0 y hy with ⟨z, hz, hv⟩
          rcases List.mem_cons.mp hz with rfl | hz
          · rw [hv]; exact hcur next (by simp)
          · rw [hv]; exact hcur z (by simp [hz])
        · refine ih _ _ (List.pairwise_cons.mpr ⟨?_, hrest⟩)
          intro y hy
          exact hnext y hy

theorem compress_sorted (s : Summary) (h : ValSorted s.entries) :
    ValSorted s.compress.entries := by
  unfold Summary.compress
  cases hs : s.entries with
  | nil => simp [hs, ValSorted]
  | cons e rest =>
    rw [hs] at h
    simpa [hs] using sweepFrom_sorted _ rest e 0 h

theorem compress_ne_nil (s : Summary) (h : s.entries ≠ []) :
    s.compress.entries ≠ [] := by
  unfold Summary.compress
  cases hs : s.entries with
  | nil => exact absurd hs h
  | cons e rest => simpa [hs] using sweepFrom_ne_nil _ rest e 0

theorem insert_entries_shape (s : Summary) (v0 : Int) (t : Nat) :
    (s.insert v0 t).entries =
      (if (s.n + 1) % 50 = 0 then
        (Summary.compress ⟨insertEntry ⟨v0, 1,
          (if (splitLE v0 s.entries).1 ≠ [] ∧ (splitLE v0 s.entries).2 ≠ [] then
            ((2 * (s.n + 1) / 100 : Nat) : Int) else 0), [t]⟩ s.entries, s.n + 1⟩).entries
      else insertEntry ⟨v0, 1,
          (if (splitLE v0 s.entries).1 ≠ [] ∧ (splitLE v0 s.entries).2 ≠ [] then
            ((2 * (s.n + 1) / 100 : Nat) : Int) else 0), [t]⟩ s.entries) := by
  unfold Summary.insert
  rw [← splitLE_insert]
  by_cases hc : (s.n + 1) % 50 = 0 <;> simp [hc]

theorem insert_sorted (s : Summary) (v0 : Int) (t : Nat) (h : ValSorted s.entries) :
    ValSorted (s.insert v0 t).entries := by
  rw [insert_entries_shape]
  by_cases hc : (s.n + 1) % 50 = 0
  · simp only [if_pos hc]
    exact compress_sorted _ (insertEntry_sorted _ h)
  · simp only [if_neg hc]
    exact insertEntry_sorted _ h

theorem insert_ne_nil (s : Summary) (v0 : Int) (t : Nat) :
    (s.insert v0 t).entries ≠ [] := by
  rw [insert_entries_shape]
  by_cases hc : (s.n + 1) % 50 = 0
  · simp only [if_pos hc]
    exact compress_ne_nil _ (insertEntry_ne_nil _ _)
  · simp only [if_neg hc]
    exact insertEntry_ne_nil _ _

theorem insert_n (s : Summary) (v0 : Int) (t : Nat) : (s.insert v0 t).n = s.n + 1 := by
  unfold Summary.insert
  by_cases hc : (s.n + 1) % 50 = 0 <;> simp [hc, Summary.compress]

theorem foldl_insertEntry_sorted : ∀ (es : List Entry) (acc : List Entry),
    ValSorted acc → ValSorted (es.foldl (fun acc e => insertEntry e acc) acc) := by
  intro es
  induction es with
  | nil => intro acc h; simpa using h
  | cons e rest ih =>
    intro acc h
    simpa using ih _ (insertEntry_sorted e h)

theorem foldl_insertEntry_ne_nil : ∀ (es : List Entry) (acc : List Entry),
    acc ≠ [] → es.foldl (fun acc e => insertEntry e acc) acc ≠ [] := by
  intro es
  induction es with
  | nil => intro acc h; simpa using h
  | cons e rest ih =>
    intro acc _
    simpa using ih _ (insertEntry_ne_nil e acc)

theorem merge_sorted (s other : Summary) (h : ValSorted s.entries) :
    ValSorted (s.merge other).entries := by
  unfold Summary.merge
  by_cases h0 : other.n = 0
  · simpa [h0]
  · simp only [if_neg h0]
    exact compress_sorted _ (foldl_insertEntry_sorted _ _ h)

theorem reachable_sorted {s : Summary} (h : Reachable s) : ValSorted s.entries := by
  induction h with
  | base => simp [newSummary, ValSorted]
  | ins s v t _ ih => exact insert_sorted s v t ih
  | mrg s other _ _ ihs _ => exact merge_sorted s other ihs

theorem reachable_n_eq_zero {s : Summary} (h : Reachable s) :
    s.n = 0 ↔ s.entries = [] := by
  induction h with
  | base => simp [newSummary]
  | ins s v t _ _ =>
    rw [insert_n]
    constructor
    · intro h; omega
    · intro h; exact absurd h (insert_ne_nil s v t)
  | mrg s other _ _ ihs _ =>
    unfold Summary.merge
    by_cases h0 : other.n = 0
    · simpa [h0] using ihs
    · simp only [if_neg h0]
      constructor
      · intro h; simp [Summary.compress] at h; omega
      · intro h
        refine absurd h (compress_ne_nil _ ?_)
        rw [List.foldl_cons]
        exact foldl_insertEntry_ne_nil _ _ (insertEntry_ne_nil _ _)

end GK

namespace GK

/-! ## Lemmas about the `Quantile` walk -/

theorem qWalk_mem : ∀ (l : List Entry) (re rmin : Int), l ≠ [] →
    ∃ e ∈ l, qWalk re rmin l = some (e.v, e.samples) := by
  intro l
  induction l with
  | nil => intro re rmin h; exact absurd rfl h
  | cons x rest ih =>
    intro re rmin _
    cases rest with
    | nil => exact ⟨x, by simp, by simp [qWalk]⟩
    | cons nx rest2 =>
      by_cases h1 : re < rmin + x.g + nx.g + nx.delta
      · by_cases h2 : re < rmin + x.g + nx.g
        · exact ⟨x, by simp, by simp [qWalk, h1, h2]⟩
        · exact ⟨nx, by simp, by simp [qWalk, h1, h2]⟩
      · rcases ih re (rmin + x.g) (by simp) with ⟨e, he, hq⟩
        exact ⟨e, List.mem_cons_of_mem _ he, by simpa [qWalk, h1] using hq⟩

theorem qWalk_head (re rmin : Int) (x : Entry) (rest : List Entry)
    (h : ∀ nx, rest.head? = some nx → re < rmin + x.g + nx.g ∧ 0 ≤ nx.delta) :
    qWalk re rmin (x :: rest) = some (x.v, x.samples) := by
  cases rest with
  | nil => simp [qWalk]
  | cons nx rest2 =>
    rcases h nx rfl with ⟨h1, h2⟩
    have houter : re < rmin + x.g + nx.g + nx.delta := by omega
    simp [qWalk, houter, h1]

theorem qWalk_last : ∀ (l : List Entry) (re rmin D : Int) (x : Entry),
    (∀ e ∈ x :: l, e.g = 1 ∧ 0 ≤ e.delta ∧ e.delta ≤ D) →
    (∀ y, (x :: l).getLast? = some y → y.delta = 0) →
    rmin + (x :: l).length ≤ re →
    rmin + (x :: l).length + D - 1 ≤ re →
    ∃ y, (x :: l).getLast? = some y ∧ qWalk re rmin (x :: l) = some (y.v, y.samples) := by
  intro l
  induction l with
  | nil =>
    intro re rmin D x _ _ _ _
    exact ⟨x, rfl, by simp [qWalk]⟩
  | cons nx rest ih =>
    intro re rmin D x hb hlast hr1 hr2
    have hxg : x.g = 1 := (hb x (by simp)).1
    have hnxg : nx.g = 1 := (hb nx (by simp)).1
    have hcond : ¬ (re < rmin + x.g + nx.g + nx.delta) := by
      cases rest with
      | nil =>
        have hδ : nx.delta = 0 := hlast nx (by simp [List.getLast?_cons_cons])
        simp only [List.length_cons, List.length_nil] at hr1
        omega
      | cons z rest2 =>
        have hδ : nx.delta ≤ D := (hb nx (by simp)).2.2
        have hlen : (3 : Int) ≤ ((x :: nx :: z :: rest2).length : Int) := by
          simp [List.length_cons]
          omega
        simp only [List.length_cons] at hr2 ⊢
        push_cast at hr2 ⊢
        omega
    have hstep : qWalk re rmin (x :: nx :: rest) = qWalk re (rmin + x.g) (nx :: rest) := by
      simp [qWalk, hcond]
    have hs1 : (rmin + x.g) + ((nx :: rest).length : Int) ≤ re := by
      simp only [List.length_cons] at hr1 ⊢
      push_cast at hr1 ⊢
      omega
    have hs2 : (rmin + x.g) + ((nx :: rest).length : Int) + D - 1 ≤ re := by
      simp only [List.length_cons] at hr2 ⊢
      push_cast at hr2 ⊢
      omega
    rcases ih re (rmin + x.g) D nx (fun e he => hb e (List.mem_cons_of_mem _ he))
        (fun y hy => hlast y (by rwa [List.getLast?_cons_cons])) hs1 hs2 with ⟨y, hy, hq⟩
    exact ⟨y, by rwa [List.getLast?_cons_cons], by rwa [hstep]⟩

end GK

namespace GK

theorem insertEntry_strict (e : Entry) : ∀ {l : List Entry},
    ValStrict l → (∀ x ∈ l, x.v ≠ e.v) → ValStrict (insertEntry e l) := by
  intro l
  induction l with
  | nil => intro _ _; simp [insertEntry, ValStrict]
  | cons x xs ih =>
    intro h hne
    rcases (List.pairwise_cons.mp h) with ⟨hx, hxs⟩
    by_cases hc : x.v ≤ e.v
    · simp only [insertEntry, if_pos hc]
      refine List.pairwise_cons.mpr ⟨?_, ih hxs (fun z hz => hne z (by simp [hz]))⟩
      intro y hy
      rcases mem_insertEntry hy with rfl | hy
      · exact lt_of_le_of_ne hc (hne x (by simp))
      · exact hx y hy
    · simp only [insertEntry, if_neg hc]
      refine List.pairwise_cons.mpr ⟨?_, h⟩
      intro y hy
      rcases List.mem_cons.mp hy with rfl | hy
      · exact lt_of_not_le hc
      · exact lt_trans (lt_of_not_le hc) (hx y hy)

theorem sweepFrom_id (epsN : Int) (heps : epsN ≤ 2) : ∀ (l : List Entry) (cur : Entry),
    (∀ e ∈ cur :: l, e.g = 1 ∧ 0 ≤ e.delta) → ValStrict (cur :: l) →
    sweepFrom epsN cur 0 l = cur :: l := by
  intro l
  induction l with
  | nil => intro cur _ _; rfl
  | cons next rest ih =>
    intro cur hb hs
    rcases List.pairwise_cons.mp hs with ⟨hcur, htail⟩
    have h1 : ¬ cur.v = next.v := ne_of_lt (hcur next (by simp))
    have h2 : ¬ (cur.g + next.g + 0 + next.delta < epsN) := by
      have hg1 : cur.g = 1 := (hb cur (by simp)).1
      have hg2 : next.g = 1 := (hb next (by simp)).1
      have hd : 0 ≤ next.delta := (hb next (by simp)).2
      omega
    simp only [sweepFrom, if_neg h1, if_neg h2]
    have hnext : (⟨next.v, next.g + 0, next.delta, next.samples⟩ : Entry) = next := by
      cases next
      simp
    rw [hnext, ih next (fun e he => hb e (List.mem_cons_of_mem _ he)) htail]

theorem compress_id (s : Summary) (heps : ((2 * s.n / 100 : Nat) : Int) ≤ 2)
    (hg : ∀ e ∈ s.entries, e.g = 1 ∧ 0 ≤ e.delta) (hs : ValStrict s.entries) :
    s.compress = s := by
  unfold Summary.compress
  cases s with
  | mk es n =>
    cases es with
    | nil => rfl
    | cons e rest =>
      simp only at hg hs heps ⊢
      rw [sweepFrom_id _ heps rest e hg hs]

/-- The unfolded form of `Summary.insert`. -/
theorem insert_eq (s : Summary) (v0 : Int) (t : Nat) :
    s.insert v0 t =
      (if (s.n + 1) % 50 = 0 then
        (Summary.compress ⟨insertEntry ⟨v0, 1,
          (if (splitLE v0 s.entries).1 ≠ [] ∧ (splitLE v0 s.entries).2 ≠ [] then
            ((2 * (s.n + 1) / 100 : Nat) : Int) else 0), [t]⟩ s.entries, s.n + 1⟩)
      else ⟨insertEntry ⟨v0, 1,
          (if (splitLE v0 s.entries).1 ≠ [] ∧ (splitLE v0 s.entries).2 ≠ [] then
            ((2 * (s.n + 1) / 100 : Nat) : Int) else 0), [t]⟩ s.entries, s.n + 1⟩) := by
  unfold Summary.insert
  rw [← splitLE_insert]

end GK

namespace GK

/-- The state of a small summary: after at most 149 distinct insertions every
entry still holds exactly one observation (`G = 1`), the entries are strictly
sorted, their values are a permutation of the inserted values, every `Delta`
is within the insertion-time bound, and the last entry is exact. -/
def EntriesSimple (s : Summary) (vs : List Int) : Prop :=
  (s.entries.map (fun e => e.v)).Perm vs ∧
  ValStrict s.entries ∧
  (∀ e ∈ s.entries, e.g = 1 ∧ 0 ≤ e.delta ∧ e.delta ≤ ((2 * s.n / 100 : Nat) : Int)) ∧
  (∀ y, s.entries.getLast? = some y → y.delta = 0) ∧
  s.n = vs.length

theorem insert_simple (s : Summary) (vs : List Int) (v0 : Int) (t : Nat)
    (h : EntriesSimple s vs) (hnew : v0 ∉ vs) (hn : s.n + 1 ≤ 149) :
    EntriesSimple (s.insert v0 t) (v0 :: vs) := by
  rcases h with ⟨hperm, hstrict, hbounds, hlast, hcount⟩
  rw [insert_eq]
  set d : Int := (if (splitLE v0 s.entries).1 ≠ [] ∧ (splitLE v0 s.entries).2 ≠ [] then
      ((2 * (s.n + 1) / 100 : Nat) : Int) else 0) with hd
  set e : Entry := ⟨v0, 1, d, [t]⟩ with he
  have hvals : ∀ x ∈ s.entries, x.v ≠ v0 := by
    intro x hx hcontra
    exact hnew (hperm.mem_iff.mp (hcontra ▸ List.mem_map_of_mem (fun e => e.v) hx))
  have hdrange : 0 ≤ d ∧ d ≤ ((2 * (s.n + 1) / 100 : Nat) : Int) := by
    rw [hd]
    by_cases hc : (splitLE v0 s.entries).1 ≠ [] ∧ (splitLE v0 s.entries).2 ≠ []
    · rw [if_pos hc]
      exact ⟨Int.natCast_nonneg _, le_refl _⟩
    · rw [if_neg hc]
      exact ⟨le_refl 0, Int.natCast_nonneg _⟩
  have hstep : EntriesSimple ⟨insertEntry e s.entries, s.n + 1⟩ (v0 :: vs) := by
    refine ⟨?_, ?_, ?_, ?_, ?_⟩
    · have h1 : ((insertEntry e s.entries).map (fun e => e.v)).Perm
          ((e :: s.entries).map (fun e => e.v)) := (insertEntry_perm e s.entries).map _
      exact h1.trans (hperm.cons v0)
    · exact insertEntry_strict e hstrict hvals
    · intro x hx
      rcases mem_insertEntry hx with rfl | hx
      · exact ⟨rfl, hdrange.1, hdrange.2⟩
      · rcases hbounds x hx with ⟨hg, hd0, hdle⟩
        refine ⟨hg, hd0, le_trans hdle ?_⟩
        have : (2 * s.n / 100 : Nat) ≤ (2 * (s.n + 1) / 100 : Nat) :=
          Nat.div_le_div_right (by omega)
        exact_mod_cast this
    · intro y hy
      rw [← splitLE_insert] at hy
      rw [List.getLast?_append_cons] at hy
      cases hp2 : (splitLE v0 s.entries).2 with
      | nil =>
        rw [hp2] at hy
        simp at hy
        have hdz : d = 0 := by
          rw [hd]
          simp [hp2]
        rw [← hy, he]
        exact hdz
      | cons z zs =>
        rw [hp2, List.getLast?_cons_cons] at hy
        apply hlast
        rw [← splitLE_append v0 s.entries,
          List.getLast?_append_of_ne_nil _ (by simp [hp2]), hp2]
        exact hy
    · simp [hcount]
  by_cases hc : (s.n + 1) % 50 = 0
  · simp only [if_pos hc]
    have heps : ((2 * (s.n + 1) / 100 : Nat) : Int) ≤ 2 := by
      have : (2 * (s.n + 1) / 100 : Nat) ≤ 2 := by omega
      exact_mod_cast this
    rw [compress_id _ heps (fun x hx => ⟨(hstep.2.2.1 x hx).1, (hstep.2.2.1 x hx).2.1⟩)
      hstep.2.1]
    exact hstep
  · simp only [if_neg hc]
    exact hstep

theorem foldl_insert_simple : ∀ (ps : List (Int × Nat)) (s : Summary) (vs : List Int),
    EntriesSimple s vs → (∀ p ∈ ps, p.1 ∉ vs) → (ps.map Prod.fst).Nodup →
    s.n + ps.length ≤ 149 →
    EntriesSimple (ps.foldl (fun s p => s.insert p.1 p.2) s)
      ((ps.map Prod.fst).reverse ++ vs) := by
  intro ps
  induction ps with
  | nil => intro s vs h _ _ _; simpa using h
  | cons p rest ih =>
    intro s vs h hnotin hnd hlen
    have hn1 : s.n + 1 ≤ 149 := by
      simp only [List.length_cons] at hlen
      omega
    have hstep := insert_simple s vs p.1 p.2 h (hnotin p (by simp)) hn1
    have hfst : p.1 ∉ rest.map Prod.fst := (List.nodup_cons.mp hnd).1
    have hres := ih (s.insert p.1 p.2) (p.1 :: vs) hstep ?_ (List.nodup_cons.mp hnd).2 ?_
    · simpa [List.append_assoc] using hres
    · intro q hq
      simp only [List.mem_cons]
      push_neg
      refine ⟨?_, hnotin q (by simp [hq])⟩
      intro hcontra
      exact hfst (hcontra ▸ List.mem_map_of_mem Prod.fst hq)
    · rw [insert_n]
      simp only [List.length_cons] at hlen
      omega

theorem insertList_simple (ps : List (Int × Nat))
    (hnd : (ps.map Prod.fst).Nodup) (hlen : ps.length ≤ 149) :
    EntriesSimple (insertList ps) ((ps.map Prod.fst).reverse) := by
  have h0 : EntriesSimple newSummary [] := by
    refine ⟨by simp [newSummary], by simp [newSummary, ValStrict], ?_, ?_, by simp [newSummary]⟩
    · intro e he; simp [newSummary] at he
    · intro y hy; simp [newSummary] at hy
  simpa using foldl_insert_simple ps newSummary [] h0 (by simp) hnd
    (by simpa [newSummary] using hlen)

end GK

namespace GK

/-! ## Rank bounds in the small regime -/

theorem countLT_cons (v w : Int) (ws : List Int) :
    countLT v (w :: ws) = (if w < v then 1 else 0) + countLT v ws := by
  by_cases h : w < v
  · simp [countLT, List.filter_cons, h]
    omega
  · simp [countLT, List.filter_cons, h]

theorem countLT_perm (v : Int) {l1 l2 : List Int} (h : l1.Perm l2) :
    countLT v l1 = countLT v l2 := by
  unfold countLT
  rw [(h.filter _).length_eq]

theorem countLT_eq_zero (v : Int) (ws : List Int) (h : ∀ x ∈ ws, ¬ x < v) :
    countLT v ws = 0 := by
  unfold countLT
  rw [List.filter_eq_nil_iff.mpr (by intro x hx; simpa using h x hx)]
  rfl

theorem rankBounds_of_sorted : ∀ (l : List Entry) (obs : List Int) (rmin : Int),
    (∀ e ∈ l, e.g = 1 ∧ 0 ≤ e.delta) →
    ValStrict l →
    (∀ e ∈ l, countLT e.v obs = rmin + countLT e.v (l.map (fun x => x.v))) →
    RankBounds obs rmin l := by
  intro l
  induction l with
  | nil => intro obs rmin _ _ _; trivial
  | cons e rest ih =>
    intro obs rmin hb hs hcnt
    rcases List.pairwise_cons.mp hs with ⟨he, hrest⟩
    have hg : e.g = 1 := (hb e (by simp)).1
    have hd : 0 ≤ e.delta := (hb e (by simp)).2
    have hown : countLT e.v ((e :: rest).map (fun x => x.v)) = 0 := by
      apply countLT_eq_zero
      intro x hx
      simp only [List.map_cons, List.mem_cons, List.mem_map] at hx
      rcases hx with rfl | ⟨y, hy, rfl⟩
      · omega
      · have := he y hy
        omega
    have hhead : countLT e.v obs = rmin := by
      rw [hcnt e (by simp), hown, add_zero]
    constructor
    · constructor
      · rw [trueRank1, hhead]; omega
      · rw [trueRank1, hhead]; omega
    · apply ih obs (rmin + e.g) (fun x hx => hb x (by simp [hx])) hrest
      intro x hx
      have hx2 : countLT x.v obs = rmin + countLT x.v ((e :: rest).map (fun y => y.v)) :=
        hcnt x (by simp [hx])
      have hstep : countLT x.v ((e :: rest).map (fun y => y.v)) =
          1 + countLT x.v (rest.map (fun y => y.v)) := by
        simp only [List.map_cons]
        rw [countLT_cons, if_pos (he x hx)]
      rw [hx2, hstep, hg]
      ring

theorem rankBounds_simple (s : Summary) (vs : List Int) (h : EntriesSimple s vs) :
    RankBounds vs 0 s.entries := by
  rcases h with ⟨hperm, hstrict, hbounds, _, _⟩
  apply rankBounds_of_sorted s.entries vs 0
      (fun e he => ⟨(hbounds e he).1, (hbounds e he).2.1⟩) hstrict
  intro e he
  rw [zero_add]
  exact (countLT_perm e.v hperm).symm

end GK

namespace GK

/-! ## Exact minimum and maximum in the small regime -/

theorem getLast?_mem' {l : List Entry} {y : Entry} (h : l.getLast? = some y) : y ∈ l := by
  rcases List.mem_getLast?_eq_getLast (by rw [h]; rfl) with ⟨hne, heq⟩
  exact heq ▸ List.getLast_mem hne

theorem strict_head_min {x : Entry} {rest : List Entry}
    (h : ValStrict (x :: rest)) : ∀ z ∈ x :: rest, x.v ≤ z.v := by
  intro z hz
  rcases List.mem_cons.mp hz with rfl | hz
  · exact le_refl _
  · exact le_of_lt ((List.pairwise_cons.mp h).1 z hz)

theorem strict_last_max : ∀ (l : List Entry) (y : Entry),
    ValStrict l → l.getLast? = some y → ∀ z ∈ l, z.v ≤ y.v := by
  intro l
  induction l with
  | nil => intro y _ hy; simp at hy
  | cons x rest ih =>
    intro y hs hy z hz
    cases rest with
    | nil =>
      simp at hy
      rcases List.mem_cons.mp hz with rfl | hz
      · rw [hy]
      · simp at hz
    | cons w ws =>
      rw [List.getLast?_cons_cons] at hy
      have hymem : y ∈ w :: ws := getLast?_mem' hy
      rcases List.mem_cons.mp hz with rfl | hz
      · exact le_of_lt ((List.pairwise_cons.mp hs).1 y hymem)
      · exact ih y (List.pairwise_cons.mp hs).2 hy z hz

theorem rankTarget_zero (n : Nat) : rankTarget 0 n = 0 := by
  simp [rankTarget, Rat.num_zero, Rat.den_zero]

theorem rankTarget_one (n : Nat) : rankTarget 1 n = n := by
  simp only [rankTarget, Rat.num_one, Rat.den_one]
  omega

theorem entries_length_simple (s : Summary) (vs : List Int) (h : EntriesSimple s vs) :
    s.entries.length = vs.length := by
  have := h.1.length_eq
  simpa using this

theorem quantile_zero_simple (s : Summary) (vs : List Int) (h : EntriesSimple s vs)
    (hne : vs ≠ []) (hn : s.n ≤ 149) :
    ∃ vmin tmin, s.quantile 0 = some (vmin, tmin) ∧ vmin ∈ vs ∧ ∀ w ∈ vs, vmin ≤ w := by
  have hlen := entries_length_simple s vs h
  rcases h with ⟨hperm, hstrict, hbounds, _, hcount⟩
  cases hes : s.entries with
  | nil =>
    rw [hes] at hlen
    simp at hlen
    exact absurd (List.length_eq_zero.mp hlen.symm) hne
  | cons x rest =>
    have hre : rankTarget 0 s.n + ((s.n / 100 : Nat) : Int) ≤ 1 := by
      rw [rankTarget_zero]
      have : s.n / 100 ≤ 1 := by omega
      simp
      omega
    have hq : s.quantile 0 = some (x.v, x.samples) := by
      unfold Summary.quantile
      rw [hes]
      apply qWalk_head
      intro nx hnx
      have hnxmem : nx ∈ s.entries := by
        rw [hes]
        exact List.mem_cons_of_mem _ (List.mem_of_mem_head? hnx)
      have hxmem : x ∈ s.entries := by rw [hes]; simp
      have h1 := (hbounds x hxmem).1
      have h2 := (hbounds nx hnxmem).1
      have h3 := (hbounds nx hnxmem).2.1
      refine ⟨?_, h3⟩
      omega
    refine ⟨x.v, x.samples, hq, ?_, ?_⟩
    · apply hperm.mem_iff.mp
      rw [hes]
      simp
    · intro w hw
      have hw2 : w ∈ s.entries.map (fun e => e.v) := hperm.mem_iff.mpr hw
      rcases List.mem_map.mp hw2 with ⟨z, hz, rfl⟩
      rw [hes] at hz hstrict
      exact strict_head_min hstrict z hz

theorem quantile_one_simple (s : Summary) (vs : List Int) (h : EntriesSimple s vs)
    (hne : vs ≠ []) (hn : s.n ≤ 149) :
    ∃ vmax tmax, s.quantile 1 = some (vmax, tmax) ∧ vmax ∈ vs ∧ ∀ w ∈ vs, w ≤ vmax := by
  have hlen := entries_length_simple s vs h
  rcases h with ⟨hperm, hstrict, hbounds, hlast, hcount⟩
  cases hes : s.entries with
  | nil =>
    rw [hes] at hlen
    simp at hlen
    exact absurd (List.length_eq_zero.mp hlen.symm) hne
  | cons x rest =>
    rw [hes] at hbounds hlast hstrict
    have hlen2 : (x :: rest).length = s.n := by
      rw [← hes, hlen, hcount]
    have hc1 : (0 : Int) + ((x :: rest).length : Int) ≤
        rankTarget 1 s.n + ((s.n / 100 : Nat) : Int) := by
      rw [rankTarget_one, hlen2]
      have : (0 : Int) ≤ ((s.n / 100 : Nat) : Int) := Int.natCast_nonneg _
      omega
    have hc2 : (0 : Int) + ((x :: rest).length : Int) + ((2 * s.n / 100 : Nat) : Int) - 1 ≤
        rankTarget 1 s.n + ((s.n / 100 : Nat) : Int) := by
      rw [rankTarget_one, hlen2]
      have h100 : (2 * s.n / 100 : Nat) ≤ s.n / 100 + 1 := by omega
      have hcast : ((2 * s.n / 100 : Nat) : Int) ≤ ((s.n / 100 : Nat) : Int) + 1 := by
        exact_mod_cast h100
      omega
    rcases qWalk_last rest (rankTarget 1 s.n + ((s.n / 100 : Nat) : Int)) 0
        ((2 * s.n / 100 : Nat) : Int) x hbounds hlast hc1 hc2 with ⟨y, hy, hq⟩
    refine ⟨y.v, y.samples, ?_, ?_, ?_⟩
    · unfold Summary.quantile
      rw [hes]
      exact hq
    · apply hperm.mem_iff.mp
      rw [hes]
      exact List.mem_map_of_mem _ (getLast?_mem' hy)
    · intro w hw
      have hw2 : w ∈ s.entries.map (fun e => e.v) := hperm.mem_iff.mpr hw
      rcases List.mem_map.mp hw2 with ⟨z, hz, rfl⟩
      rw [hes] at hz
      exact strict_last_max (x :: rest) y hstrict hy z hz

end GK

namespace GK

/-! ## Distinct-value insertions at any count: the last entry stays exact -/

theorem sweepFrom_strict (epsN : Int) : ∀ (l : List Entry) (cur : Entry) (m : Int),
    ValStrict (cur :: l) → ValStrict (sweepFrom epsN cur m l) := by
  intro l
  induction l with
  | nil => intro cur m _; simp [sweepFrom, ValStrict]
  | cons next rest ih =>
    intro cur m h
    rcases List.pairwise_cons.mp h with ⟨hcur, htail⟩
    rcases List.pairwise_cons.mp htail with ⟨hnext, hrest⟩
    have h1 : ¬ cur.v = next.v := ne_of_lt (hcur next (by simp))
    by_cases h2 : cur.g + next.g + m + next.delta < epsN
    · simp only [sweepFrom, if_neg h1, if_pos h2]
      exact ih _ _ (List.pairwise_cons.mpr ⟨fun y hy => hnext y hy, hrest⟩)
    · simp only [sweepFrom, if_neg h1, if_neg h2]
      refine List.pairwise_cons.mpr ⟨?_, ?_⟩
      · intro y hy
        rcases sweepFrom_val_mem epsN rest _ 0 y hy with ⟨z, hz, hv⟩
        rcases List.mem_cons.mp hz with rfl | hz
        · rw [hv]; exact hcur next (by simp)
        · rw [hv]; exact hcur z (by simp [hz])
      · exact ih _ _ (List.pairwise_cons.mpr ⟨fun y hy => hnext y hy, hrest⟩)

theorem sweepFrom_last (epsN : Int) : ∀ (l : List Entry) (cur : Entry) (m : Int),
    ValStrict (cur :: l) →
    (∀ y, (cur :: l).getLast? = some y → y.delta = 0) →
    (∀ y, (sweepFrom epsN cur m l).getLast? = some y → y.delta = 0) := by
  intro l
  induction l with
  | nil =>
    intro cur m _ hl y hy
    simp [sweepFrom] at hy
    exact hy ▸ hl cur rfl
  | cons next rest ih =>
    intro cur m h hl
    rcases List.pairwise_cons.mp h with ⟨hcur, htail⟩
    rcases List.pairwise_cons.mp htail with ⟨hnext, hrest⟩
    have h1 : ¬ cur.v = next.v := ne_of_lt (hcur next (by simp))
    have hlast_tail : ∀ (c2 : Entry), c2.v = next.v → c2.delta = next.delta →
        (∀ y, (c2 :: rest).getLast? = some y → y.delta = 0) := by
      intro c2 hv hdelta y hy
      cases rest with
      | nil =>
        simp at hy
        have hnd := hl next (by simp [List.getLast?_cons_cons])
        rw [← hy, hdelta]
        exact hnd
      | cons z zs =>
        rw [List.getLast?_cons_cons] at hy
        exact hl y (by rw [List.getLast?_cons_cons, List.getLast?_cons_cons]; exact hy)
    by_cases h2 : cur.g + next.g + m + next.delta < epsN
    · simp only [sweepFrom, if_neg h1, if_pos h2]
      exact ih _ _ (List.pairwise_cons.mpr ⟨fun y hy => hnext y hy, hrest⟩)
        (hlast_tail _ rfl rfl)
    · simp only [sweepFrom, if_neg h1, if_neg h2]
      intro y hy
      have hsw := sweepFrom_ne_nil epsN rest
        (⟨next.v, next.g + m, next.delta, next.samples⟩ : Entry) 0
      cases hswe : sweepFrom epsN (⟨next.v, next.g + m, next.delta, next.samples⟩ : Entry) 0
          rest with
      | nil => exact absurd hswe hsw
      | cons w ws =>
        rw [hswe, List.getLast?_cons_cons] at hy
        refine ih (⟨next.v, next.g + m, next.delta, next.samples⟩ : Entry) 0
          (List.pairwise_cons.mpr ⟨fun y hy => hnext y hy, hrest⟩)
          (hlast_tail _ rfl rfl) y ?_
        rw [hswe]
        exact hy

/-- Distinct-value insert-only invariant: strictly sorted entries whose values
come from the inserted observations, with an exact last entry. -/
def DistinctState (s : Summary) (obs : List Int) : Prop :=
  ValStrict s.entries ∧ (∀ e ∈ s.entries, e.v ∈ obs) ∧
  (∀ y, s.entries.getLast? = some y → y.delta = 0)

theorem compress_distinct (s : Summary) (obs : List Int) (h : DistinctState s obs) :
    DistinctState s.compress obs := by
  rcases h with ⟨hs, hm, hl⟩
  unfold Summary.compress
  cases hes : s.entries with
  | nil => exact ⟨by simpa [hes] using hs, by simp, by simp⟩
  | cons e rest =>
    rw [hes] at hs hm hl
    refine ⟨?_, ?_, ?_⟩
    · simpa using sweepFrom_strict _ rest e 0 hs
    · intro y hy
      simp only at hy
      rcases sweepFrom_val_mem _ rest e 0 y hy with ⟨z, hz, hv⟩
      rw [hv]
      exact hm z hz
    · simpa using sweepFrom_last _ rest e 0 hs hl

theorem insert_distinct (s : Summary) (obs : List Int) (v0 : Int) (t : Nat)
    (h : DistinctState s obs) (hv : v0 ∉ obs) :
    DistinctState (s.insert v0 t) (v0 :: obs) := by
  rcases h with ⟨hs, hm, hl⟩
  rw [insert_eq]
  set d : Int := (if (splitLE v0 s.entries).1 ≠ [] ∧ (splitLE v0 s.entries).2 ≠ [] then
      ((2 * (s.n + 1) / 100 : Nat) : Int) else 0) with hd
  set e : Entry := ⟨v0, 1, d, [t]⟩ with he
  have hvals : ∀ x ∈ s.entries, x.v ≠ v0 := by
    intro x hx hcontra
    exact hv (hcontra ▸ hm x hx)
  have hstep : DistinctState ⟨insertEntry e s.entries, s.n + 1⟩ (v0 :: obs) := by
    refine ⟨insertEntry_strict e hs hvals, ?_, ?_⟩
    · intro x hx
      rcases mem_insertEntry hx with rfl | hx
      · simp [he]
      · exact List.mem_cons_of_mem _ (hm x hx)
    · intro y hy
      simp only at hy
      rw [← splitLE_insert, List.getLast?_append_cons] at hy
      cases hp2 : (splitLE v0 s.entries).2 with
      | nil =>
        rw [hp2] at hy
        simp at hy
        have hdz : d = 0 := by
          rw [hd]
          simp [hp2]
        rw [← hy, he]
        exact hdz
      | cons z zs =>
        rw [hp2, List.getLast?_cons_cons] at hy
        apply hl
        rw [← splitLE_append v0 s.entries,
          List.getLast?_append_of_ne_nil _ (by simp [hp2]), hp2]
        exact hy
  by_cases hc : (s.n + 1) % 50 = 0
  · simp only [if_pos hc]
    exact compress_distinct _ _ hstep
  · simp only [if_neg hc]
    exact hstep

theorem foldl_insert_distinct : ∀ (ps : List (Int × Nat)) (s : Summary) (obs : List Int),
    DistinctState s obs → (∀ p ∈ ps, p.1 ∉ obs) → (ps.map Prod.fst).Nodup →
    DistinctState (ps.foldl (fun s p => s.insert p.1 p.2) s)
      ((ps.map Prod.fst).reverse ++ obs) := by
  intro ps
  induction ps with
  | nil => intro s obs h _ _; simpa using h
  | cons p rest ih =>
    intro s obs h hnotin hnd
    have hstep := insert_distinct s obs p.1 p.2 h (hnotin p (by simp))
    have hfst : p.1 ∉ rest.map Prod.fst := (List.nodup_cons.mp hnd).1
    have hres := ih (s.insert p.1 p.2) (p.1 :: obs) hstep ?_ (List.nodup_cons.mp hnd).2
    · simpa [List.append_assoc] using hres
    · intro q hq
      simp only [List.mem_cons]
      push_neg
      refine ⟨?_, hnotin q (by simp [hq])⟩
      intro hcontra
      exact hfst (hcontra ▸ List.mem_map_of_mem Prod.fst hq)

theorem foldl_insert_ne_nil : ∀ (ps : List (Int × Nat)) (s : Summary),
    s.entries ≠ [] ∨ ps ≠ [] →
    (ps.foldl (fun s p => s.insert p.1 p.2) s).entries ≠ [] := by
  intro ps
  induction ps with
  | nil =>
    intro s h
    rcases h with h | h
    · simpa using h
    · exact absurd rfl h
  | cons p rest ih =>
    intro s _
    exact ih (s.insert p.1 p.2) (Or.inl (insert_ne_nil s p.1 p.2))

end GK

namespace GK

/-! ## Structure of `BySlices` -/

theorem bySlicesFrom_chain (maxS : Nat) : ∀ (l : List Entry) (lv : Int),
    List.Chain' (fun a b : SummarySlice => a.endV = b.startV)
      (bySlicesFrom maxS lv l) := by
  intro l
  induction l with
  | nil => intro lv; simp [bySlicesFrom]
  | cons cur rest ih =>
    intro lv
    rw [bySlicesFrom, List.chain'_cons']
    refine ⟨?_, ih cur.v⟩
    intro b hb
    cases rest with
    | nil => simp [bySlicesFrom] at hb
    | cons z zs =>
      simp [bySlicesFrom] at hb
      rw [← hb]

theorem bySlicesFrom_ascend (maxS : Nat) : ∀ (l : List Entry) (lv : Int),
    ValSorted l → (∀ e ∈ l, lv ≤ e.v) →
    List.Chain' (fun a b : SummarySlice => a.startV ≤ b.startV ∧ a.endV ≤ b.endV)
      (bySlicesFrom maxS lv l) := by
  intro l
  induction l with
  | nil => intro lv _ _; simp [bySlicesFrom]
  | cons cur rest ih =>
    intro lv hs hlv
    rcases List.pairwise_cons.mp hs with ⟨hcur, hrest⟩
    rw [bySlicesFrom, List.chain'_cons']
    refine ⟨?_, ih cur.v hrest (fun e he => hcur e he)⟩
    intro b hb
    cases rest with
    | nil => simp [bySlicesFrom] at hb
    | cons z zs =>
      simp [bySlicesFrom] at hb
      rw [← hb]
      exact ⟨hlv cur (by simp), hcur z (by simp)⟩

theorem bySlicesFrom_eq_zip (maxS : Nat) : ∀ (l : List Entry) (lv : Int),
    bySlicesFrom maxS lv l =
      ((lv :: l.map (fun e => e.v)).zip l).map fun pe =>
        ⟨pe.1, pe.2.v, pe.2.g + pe.2.delta - 1, pe.2.samples.take maxS⟩ := by
  intro l
  induction l with
  | nil => intro lv; simp [bySlicesFrom]
  | cons cur rest ih =>
    intro lv
    simp only [bySlicesFrom, List.map_cons, List.zip_cons_cons, List.map]
    rw [ih cur.v]
    rfl

theorem bySlicesFrom_length (maxS : Nat) : ∀ (l : List Entry) (lv : Int),
    (bySlicesFrom maxS lv l).length = l.length := by
  intro l
  induction l with
  | nil => intro lv; rfl
  | cons cur rest ih =>
    intro lv
    simp [bySlicesFrom, ih cur.v]

end GK

namespace GK

theorem rankBounds_perm {l1 l2 : List Int} (h : l1.Perm l2) :
    ∀ (es : List Entry) (rmin : Int), RankBounds l1 rmin es → RankBounds l2 rmin es := by
  intro es
  induction es with
  | nil => intro rmin _; trivial
  | cons e rest ih =>
    intro rmin hb
    rcases hb with ⟨⟨h1, h2⟩, htail⟩
    have hc : trueRank1 e.v l2 = trueRank1 e.v l1 := by
      unfold trueRank1
      rw [countLT_perm e.v h]
    exact ⟨⟨by rw [hc]; exact h1, by rw [hc]; exact h2⟩, ih _ htail⟩

/-! ## Concrete insertion sequences used to settle the claims -/

/-- 150 increasing values `0,...,149` with sample IDs `0,...,149`. -/
def incPairs : List (Int × Nat) := (List.range 150).map fun i => (Int.ofNat i, i)

/-- 50 copies of the value 5 with sample IDs `0,...,49`. -/
def dupPairs : List (Int × Nat) := (List.range 50).map fun i => ((5 : Int), i)

/-- 150 distinct values `0,10,...,1490` followed by the value `5`. -/
def gapPairs : List (Int × Nat) :=
  ((List.range 150).map fun i => (Int.ofNat (10 * i), i)) ++ [((5 : Int), 150)]

end GK

namespace GK

/-! ## The claims -/

/-- Claim C1 (counterexample): after inserting the 100 TestArray values,
`Quantile(0.5)` returns the value `7620414993900439` whose true rank among
the inserted values is 51 — not 36, 53 or 72 as the claim states (those
numbers are the *sample IDs* of the three acceptable answers, not ranks). -/
theorem c1_counterexample :
    (insertList testPairs).quantile (mkRat 1 2) = some (7620414993900439, [53]) ∧
    mkRat 1 2 = (1/2 : Rat) ∧
    trueRank1 7620414993900439 testArray = 51 ∧
    (trueRank1 7620414993900439 testArray ≠ 36 ∧
     trueRank1 7620414993900439 testArray ≠ 53 ∧
     trueRank1 7620414993900439 testArray ≠ 72) := by
  refine ⟨by decide, by norm_num [Rat.mkRat_eq_div], by decide, by decide, by decide, by decide⟩

/-- Claim C1 (amended): after inserting the 100 distinct TestArray values
with sample IDs `0..99`, `Quantile(0.5)` returns the value of true rank 51 —
within `epsilon*N = 1` of the target rank `q*N = 50` — and its sample ID 53
indexes the actually-inserted observation equal to that value. -/
theorem c1_amended :
    (insertList testPairs).quantile (mkRat 1 2) = some (7620414993900439, [53]) ∧
    mkRat 1 2 = (1/2 : Rat) ∧
    testArray.length = 100 ∧
    trueRank1 7620414993900439 testArray = 51 ∧
    |trueRank1 7620414993900439 testArray - 50| ≤ 1 ∧
    testArray[53]? = some 7620414993900439 := by
  refine ⟨by decide, by norm_num [Rat.mkRat_eq_div], by decide, by decide, by decide, by decide⟩

/-- Claim C2 (counterexample): after 151 inserts of pairwise-distinct values
(`0,10,...,1490`, then `5`), the compress pass at `N = 150` has folded the
minimum entry away, and the store's first entry (value 5, `G = 1`,
`Delta = 0`) claims the rank interval `[1,1]` while the true rank of 5 among
the inserted observations is 2. -/
theorem c2_counterexample :
    (insertList gapPairs).entries.head? = some (⟨5, 1, 0, [150]⟩ : Entry) ∧
    (gapPairs.map Prod.fst).Nodup ∧
    trueRank1 5 (gapPairs.map Prod.fst) = 2 ∧
    ¬ (0 + 1 ≤ trueRank1 5 (gapPairs.map Prod.fst) ∧
       trueRank1 5 (gapPairs.map Prod.fst) ≤ 0 + 1 + 0) := by
  refine ⟨by decide, by decide, by decide, by decide⟩

/-- Claim C2 (amended): the store is kept in ascending `Value` order after
every reachable sequence of operations; and for every sequence of at most
149 `Insert` calls with pairwise-distinct values (so that no compress pass
has yet folded any entry), every entry's true rank lies in
`[sum G up to i, sum G up to i + Delta_i]`. -/
theorem c2_amended :
    (∀ s : Summary, Reachable s → ValSorted s.entries) ∧
    (∀ ps : List (Int × Nat), (ps.map Prod.fst).Nodup → ps.length ≤ 149 →
      ValStrict (insertList ps).entries ∧
      RankBounds (ps.map Prod.fst) 0 (insertList ps).entries) := by
  constructor
  · intro s h
    exact reachable_sorted h
  · intro ps hnd hlen
    have h := insertList_simple ps hnd hlen
    refine ⟨h.2.1, ?_⟩
    exact rankBounds_perm (List.reverse_perm _) _ 0 (rankBounds_simple _ _ h)

/-- Claim C2 (witness): the amended claim at the concrete input
`[(5,0),(3,1)]`. -/
theorem c2_witness :
    ValSorted (insertList [((5 : Int), 0), ((3 : Int), 1)]).entries ∧
    RankBounds [(5 : Int), 3] 0 (insertList [((5 : Int), 0), ((3 : Int), 1)]).entries := by
  refine ⟨c2_amended.1 _ (Reachable.ins _ 3 1 (Reachable.ins _ 5 0 Reachable.base)), ?_⟩
  exact (c2_amended.2 [((5 : Int), 0), ((3 : Int), 1)] (by decide) (by decide)).2

/-- Claim C3 (code bug): `Merge` walks `other`'s store from the skiplist
*head*, so besides `other`'s real entries it also inserts the sentinel's
zero `Entry {V:0, G:0, Delta:0, Samples:nil}` — an entry that was in
neither summary. -/
theorem c3_merge_inserts_sentinel :
    ((insertList [((5 : Int), 0)]).merge (insertList [((7 : Int), 1)])).entries =
      [⟨0, 0, 0, []⟩, ⟨5, 1, 0, [0]⟩, ⟨7, 1, 0, [1]⟩] ∧
    ((insertList [((5 : Int), 0)]).merge (insertList [((7 : Int), 1)])).n = 2 ∧
    ((⟨0, 0, 0, []⟩ : Entry) ∉ (insertList [((7 : Int), 1)]).entries) ∧
    ((⟨0, 0, 0, []⟩ : Entry) ∉ (insertList [((5 : Int), 0)]).entries) := by
  refine ⟨by decide, by decide, by decide, by decide⟩

/-- Claim C4: `Quantile` fails (the walk runs off an empty store, reaching
`panic("not reached")`, embedded as `none`) exactly when the summary is
empty (`N = 0`, no entries); on any non-empty reachable summary it returns
the `Value` and `Samples` of some stored entry. -/
theorem c4_quantile_panic_iff_empty :
    ∀ (s : Summary) (q : Rat), Reachable s →
      (s.quantile q = none ↔ s.n = 0) ∧
      (s.quantile q = none ↔ s.entries = []) ∧
      (s.entries ≠ [] → ∃ e ∈ s.entries, s.quantile q = some (e.v, e.samples)) := by
  intro s q hr
  have hiff2 : s.quantile q = none ↔ s.entries = [] := by
    constructor
    · intro h
      by_contra hne
      rcases qWalk_mem s.entries (rankTarget q s.n + ((s.n / 100 : Nat) : Int)) 0 hne with
        ⟨e, _, hq⟩
      rw [Summary.quantile] at h
      rw [h] at hq
      exact Option.noConfusion hq
    · intro h
      rw [Summary.quantile, h]
      rfl
  refine ⟨hiff2.trans (reachable_n_eq_zero hr).symm, hiff2, ?_⟩
  intro hne
  rcases qWalk_mem s.entries (rankTarget q s.n + ((s.n / 100 : Nat) : Int)) 0 hne with
    ⟨e, he, hq⟩
  exact ⟨e, he, hq⟩

/-- Claim C4 (witness): the theorem applied to the singleton summary
obtained by `Insert(5, 0)` and `q = 0`. -/
theorem c4_witness :
    ((insertList [((5 : Int), 0)]).quantile 0 = none ↔ (insertList [((5 : Int), 0)]).n = 0) ∧
    (∃ e ∈ (insertList [((5 : Int), 0)]).entries,
      (insertList [((5 : Int), 0)]).quantile 0 = some (e.v, e.samples)) := by
  have h := c4_quantile_panic_iff_empty (insertList [((5 : Int), 0)]) 0
    (Reachable.ins _ 5 0 Reachable.base)
  exact ⟨h.1, h.2.2 (by decide)⟩

/-- Claim C5 (code bug): `MarshalJSON`/`GobEncode` flatten the store from
the skiplist head, so the sentinel's zero entry is encoded and re-inserted
on decode; the decoded summary answers `Quantile(0)` with the value 0 and an
empty sample list — not the original `(5, [0])` — so the round trip is not
quantile-faithful. -/
theorem c5_roundtrip_not_faithful :
    (insertList [((5 : Int), 0)]).quantile 0 = some (5, [0]) ∧
    (insertList [((5 : Int), 0)]).roundTrip.n = (insertList [((5 : Int), 0)]).n ∧
    (insertList [((5 : Int), 0)]).roundTrip.quantile 0 = some (0, []) ∧
    (insertList [((5 : Int), 0)]).roundTrip.quantile 0 ≠
      (insertList [((5 : Int), 0)]).quantile 0 := by
  refine ⟨by decide, by decide, by decide, by decide⟩

/-- Claim C6 (counterexample): inserting the 150 increasing values
`0,...,149` (one `compress` fires at `N = 150` and folds the minimum entry
into its neighbour), `Quantile(0)` returns the value 1 although the value 0
was inserted and exactly one observation lies strictly below 1. -/
theorem c6_counterexample :
    (insertList incPairs).quantile 0 = some (1, [0]) ∧
    ((0 : Int) ∈ incPairs.map Prod.fst) ∧
    countLT 1 (incPairs.map Prod.fst) = 1 := by
  refine ⟨by decide, by decide, by decide⟩

/-- Claim C6 (amended): for every non-empty sequence of at most 149 Insert
calls with pairwise-distinct values (any order), `Quantile(0)` returns the
exact minimum inserted value and `Quantile(1)` the exact maximum,
immediately after the insertions. -/
theorem c6_amended :
    ∀ ps : List (Int × Nat), (ps.map Prod.fst).Nodup → ps ≠ [] → ps.length ≤ 149 →
      (∃ vmin tmin, (insertList ps).quantile 0 = some (vmin, tmin) ∧
        vmin ∈ ps.map Prod.fst ∧ ∀ w ∈ ps.map Prod.fst, vmin ≤ w) ∧
      (∃ vmax tmax, (insertList ps).quantile 1 = some (vmax, tmax) ∧
        vmax ∈ ps.map Prod.fst ∧ ∀ w ∈ ps.map Prod.fst, w ≤ vmax) := by
  intro ps hnd hne hlen
  have h := insertList_simple ps hnd hlen
  have hn : (insertList ps).n ≤ 149 := by
    rw [h.2.2.2.2]
    simpa using hlen
  have hvs : (ps.map Prod.fst).reverse ≠ [] := by
    simpa using hne
  constructor
  · rcases quantile_zero_simple _ _ h hvs hn with ⟨vmin, tmin, hq, hmem, hall⟩
    exact ⟨vmin, tmin, hq, by simpa using hmem, fun w hw => hall w (by simpa using hw)⟩
  · rcases quantile_one_simple _ _ h hvs hn with ⟨vmax, tmax, hq, hmem, hall⟩
    exact ⟨vmax, tmax, hq, by simpa using hmem, fun w hw => hall w (by simpa using hw)⟩

/-- Claim C6 (witness): the amended claim at the concrete input
`[(5,0),(3,1)]`. -/
theorem c6_witness :
    (∃ vmin tmin, (insertList [((5 : Int), 0), ((3 : Int), 1)]).quantile 0 =
        some (vmin, tmin) ∧
      vmin ∈ [((5 : Int), 0), ((3 : Int), 1)].map Prod.fst ∧
      ∀ w ∈ [((5 : Int), 0), ((3 : Int), 1)].map Prod.fst, vmin ≤ w) ∧
    (∃ vmax tmax, (insertList [((5 : Int), 0), ((3 : Int), 1)]).quantile 1 =
        some (vmax, tmax) ∧
      vmax ∈ [((5 : Int), 0), ((3 : Int), 1)].map Prod.fst ∧
      ∀ w ∈ [((5 : Int), 0), ((3 : Int), 1)].map Prod.fst, w ≤ vmax) :=
  c6_amended [((5 : Int), 0), ((3 : Int), 1)] (by decide) (by decide) (by decide)

/-- Claim C7 (counterexample): after 50 inserts of the same value 5, the
compress pass at `N = 50` folds everything into a single entry carrying
`Delta = 49`; that entry is both the first and the last of the store, so
neither boundary entry has `Delta = 0`. -/
theorem c7_counterexample :
    (insertList dupPairs).entries = [(⟨5, 1, 49, [0]⟩ : Entry)] ∧
    ((49 : Int) ≠ 0) := by
  refine ⟨by decide, by decide⟩

/-- Claim C7 (amended): after every sequence of `Insert` calls with
pairwise-distinct values (automatic compress included), the *last* entry of
a non-empty store has `Delta = 0`; the first entry's `Delta` is not so
protected (compress can fold the minimum into an interior-born entry), and
with duplicate values even the last entry's `Delta` can become nonzero. -/
theorem c7_amended :
    ∀ ps : List (Int × Nat), (ps.map Prod.fst).Nodup → ps ≠ [] →
      ∃ y, (insertList ps).entries.getLast? = some y ∧ y.delta = 0 := by
  intro ps hnd hne
  have h0 : DistinctState newSummary [] := by
    refine ⟨by simp [newSummary, ValStrict], ?_, ?_⟩
    · intro e he; simp [newSummary] at he
    · intro y hy; simp [newSummary] at hy
  have hd := foldl_insert_distinct ps newSummary [] h0 (by simp) hnd
  have hne2 : (insertList ps).entries ≠ [] := by
    apply foldl_insert_ne_nil ps newSummary
    exact Or.inr hne
  rcases List.getLast?_eq_getLast_of_ne_nil hne2 with hy
  exact ⟨_, hy, hd.2.2 _ hy⟩

/-- Claim C7 (witness): the amended claim at the concrete input
`[(5,0),(3,1)]`. -/
theorem c7_witness :
    ∃ y, (insertList [((5 : Int), 0), ((3 : Int), 1)]).entries.getLast? = some y ∧
      y.delta = 0 :=
  c7_amended [((5 : Int), 0), ((3 : Int), 1)] (by decide) (by decide)

/-- Claim C8 (code bug): `changeSample := rand.Intn(1) == 0` is always true
(`rand.Intn(1)` only returns 0), so when compress folds the 49 equal-value
pairs of `dupPairs` the surviving entry always keeps `cur`'s samples — the
sample ID 0 of the first duplicate — and the "keep next's samples" outcome
never occurs for any random draw. -/
theorem c8_surviving_sample_deterministic :
    (insertList dupPairs).entries.map (fun e => e.samples) = [[0]] ∧
    (insertList dupPairs).n = 50 := by
  refine ⟨by decide, by decide⟩

/-- Claim C9 (counterexample): after a single `Insert(5, 0)` the one
returned slice has `Weight = G + Delta - 1 = 0`, so the sum of `Weight`
over all slices is `0 < N = 1`. -/
theorem c9_counterexample :
    (insertList [((5 : Int), 0)]).bySlices 10 = [⟨0, 5, 0, [0]⟩] ∧
    (insertList [((5 : Int), 0)]).n = 1 ∧
    ¬ (((insertList [((5 : Int), 0)]).n : Int) ≤
        ((insertList [((5 : Int), 0)]).bySlices 10).foldl (fun a sl => a + sl.weight) 0) := by
  refine ⟨by decide, by decide, by decide⟩

/-- Claim C9 (amended): the slices returned by `BySlices` are contiguous
(slice `i+1`'s `Start` equals slice `i`'s `End`) for every summary, and for
every reachable summary whose stored values are nonnegative they are also
ordered ascending; the claimed lower bound `sum Weight >= N` does not hold. -/
theorem c9_amended :
    (∀ (s : Summary) (maxS : Nat),
      List.Chain' (fun a b : SummarySlice => a.endV = b.startV) (s.bySlices maxS)) ∧
    (∀ (s : Summary) (maxS : Nat), Reachable s → (∀ e ∈ s.entries, 0 ≤ e.v) →
      List.Chain' (fun a b : SummarySlice => a.startV ≤ b.startV ∧ a.endV ≤ b.endV)
        (s.bySlices maxS)) := by
  constructor
  · intro s maxS
    exact bySlicesFrom_chain maxS s.entries 0
  · intro s maxS hr hnn
    exact bySlicesFrom_ascend maxS s.entries 0 (reachable_sorted hr) hnn

/-- Claim C9 (witness): the amended claim's reachability part at the summary
built by `Insert(5,0); Insert(9,1)` with `maxSamples = 10`. -/
theorem c9_witness :
    List.Chain' (fun a b : SummarySlice => a.endV = b.startV)
      ((insertList [((5 : Int), 0), ((9 : Int), 1)]).bySlices 10) ∧
    List.Chain' (fun a b : SummarySlice => a.startV ≤ b.startV ∧ a.endV ≤ b.endV)
      ((insertList [((5 : Int), 0), ((9 : Int), 1)]).bySlices 10) :=
  ⟨c9_amended.1 _ 10,
    c9_amended.2 (insertList [((5 : Int), 0), ((9 : Int), 1)]) 10
      (Reachable.ins _ 9 1 (Reachable.ins _ 5 0 Reachable.base)) (by decide)⟩

/-- Claim C10 (counterexample): with two stored entries (values 5 and 9)
`BySlices` emits *two* slices — one per entry, not one per consecutive pair
of entries — and the first slice starts at the sentinel value 0, not at the
smallest stored value 5. -/
theorem c10_counterexample :
    (insertList [((5 : Int), 0), ((9 : Int), 1)]).bySlices 10 =
      [⟨0, 5, 0, [0]⟩, ⟨5, 9, 0, [1]⟩] ∧
    (insertList [((5 : Int), 0), ((9 : Int), 1)]).entries.length = 2 ∧
    ((insertList [((5 : Int), 0), ((9 : Int), 1)]).bySlices 10).length ≠ 2 - 1 := by
  refine ⟨by decide, by decide, by decide⟩

/-- Claim C10 (amended): `BySlices(maxSamples)` emits exactly one slice per
store entry, pairing each entry with its predecessor node — the sentinel
head with value 0 for the first entry — with `Start` the predecessor value,
`End = cur.Value`, `Weight = cur.G + cur.Delta - 1`, and `Samples` the first
`maxSamples` elements of `cur.Samples`. -/
theorem c10_amended :
    ∀ (s : Summary) (maxS : Nat),
      s.bySlices maxS =
        ((0 :: s.entries.map (fun e => e.v)).zip s.entries).map
          (fun pe => ⟨pe.1, pe.2.v, pe.2.g + pe.2.delta - 1, pe.2.samples.take maxS⟩) ∧
      (s.bySlices maxS).length = s.entries.length := by
  intro s maxS
  exact ⟨bySlicesFrom_eq_zip maxS s.entries 0, bySlicesFrom_length maxS s.entries 0⟩

end GK
